import Mathlib

/-!
Verification of the SignalScribe ingestion pipeline against its
natural-language specification.  Each section embeds one component of the
source (SignalScribe/trackedqueue.py, transcriber.py, model.py, decoder.py,
output.py, watcher.py, app.py) as executable Lean definitions and proves or
refutes the spec's claims about it.
-/

namespace SignalScribe

/-! ## TrackedQueue (SignalScribe/trackedqueue.py)

The queue wrapper keeps a shared counter `_size` in a `multiprocessing.Value("i", 0)`,
a C `int32` that wraps silently on overflow.  `put` first enqueues on the inner
queue, then (under `_mp_lock`) increments the counter; `get` first dequeues,
then (under the lock) decrements the counter only when it is strictly positive.
Each lock-protected counter update and each inner-queue operation is one atomic
micro-step; a whole `put` or `get` is two micro-steps, and concurrent callers
may interleave micro-steps of different calls. -/

/-- Wrap an integer into the signed 32-bit range, as C `int` overflow does for
the `multiprocessing.Value("i", 0)` counter. -/
def wrap32 (n : Int) : Int := (n + 2 ^ 31) % 2 ^ 32 - 2 ^ 31

/-- State of one TrackedQueue: the inner FIFO contents and the shared
`_size` counter. -/
structure QState where
  queue : List Nat
  counter : Int
  deriving DecidableEq, Repr

/-- Initial state: empty queue, counter zero (`Value("i", 0)`). -/
def QState.init : QState := ⟨[], 0⟩

/-- Atomic micro-steps of `TrackedQueue.put` and `TrackedQueue.get`:
`put item` is `enqueue item` followed by `incCounter`; `get` is `dequeue`
followed by `condDec`.  The lock serialises the two counter steps but does
not join them to their queue steps. -/
inductive MicroOp where
  | enqueue (v : Nat)
  | incCounter
  | dequeue
  | condDec
  deriving DecidableEq, Repr

/-- Execute one micro-step.  `dequeue` on an empty queue blocks (no result);
`incCounter` is `self._size.value += 1` on the int32 cell; `condDec` is the
guarded `if self._size.value > 0: self._size.value -= 1`. -/
def microStep (s : QState) : MicroOp → Option QState
  | .enqueue v => some ⟨s.queue ++ [v], s.counter⟩
  | .incCounter => some ⟨s.queue, wrap32 (s.counter + 1)⟩
  | .dequeue =>
      match s.queue with
      | [] => none
      | _ :: rest => some ⟨rest, s.counter⟩
  | .condDec => some ⟨s.queue, if 0 < s.counter then s.counter - 1 else s.counter⟩

/-- Run a schedule of micro-steps; the whole run blocks (returns `none`) if a
step is not enabled. -/
def runMicro (s : QState) : List MicroOp → Option QState
  | [] => some s
  | op :: rest => (microStep s op).bind (fun s1 => runMicro s1 rest)

/-- Complete (serialized) operations on the queue. -/
inductive QOp where
  | put (v : Nat)
  | get
  deriving DecidableEq, Repr

/-- Micro-step expansion of a complete operation, exactly as the source
orders the two halves. -/
def QOp.micro : QOp → List MicroOp
  | .put v => [.enqueue v, .incCounter]
  | .get => [.dequeue, .condDec]

/-- Serialized execution: each `put`/`get` runs to completion (both of its
micro-steps) before the next operation starts. -/
def runOps (s : QState) : List QOp → Option QState
  | [] => some s
  | op :: rest => (runMicro s op.micro).bind (fun s1 => runOps s1 rest)

/-- Number of `put` operations in a serialized schedule. -/
def countPuts (ops : List QOp) : Nat :=
  ops.countP (fun op => match op with | .put _ => true | .get => false)

/-- Number of `get` operations in a serialized schedule. -/
def countGets (ops : List QOp) : Nat :=
  ops.countP (fun op => match op with | .put _ => false | .get => true)

/-- Number of `incCounter` micro-steps in a micro schedule. -/
def countIncs (sched : List MicroOp) : Nat :=
  sched.countP (fun op => match op with | .incCounter => true | _ => false)

theorem wrap32_of_lt {n : Int} (h0 : 0 ≤ n + 2 ^ 31) (h1 : n + 2 ^ 31 < 2 ^ 32) :
    wrap32 n = n := by
  unfold wrap32
  rw [Int.emod_eq_of_lt h0 h1]
  omega

theorem runOps_append (s : QState) (l1 l2 : List QOp) :
    runOps s (l1 ++ l2) = (runOps s l1).bind (fun s1 => runOps s1 l2) := by
  induction l1 generalizing s with
  | nil => simp [runOps]
  | cons op rest ih =>
      simp only [List.cons_append, runOps]
      cases runMicro s op.micro with
      | none => simp
      | some s1 => simpa using ih s1

/-- Core serialized invariant: starting from a state whose counter equals its
queue length, a completed serialized schedule with fewer than `2^31` total
`put`s (so the int32 never wraps) keeps the counter equal to the queue length,
and the counter moves by exactly `puts - gets`. -/
theorem runOps_invariant (ops : List QOp) (s0 s : QState)
    (hinv : s0.counter = s0.queue.length)
    (hbound : s0.queue.length + countPuts ops < 2 ^ 31)
    (hrun : runOps s0 ops = some s) :
    s.counter = s.queue.length ∧
      (s.counter : Int) = s0.counter + countPuts ops - countGets ops := by
  induction ops generalizing s0 with
  | nil =>
      simp only [runOps, Option.some.injEq] at hrun
      subst hrun
      simp [countPuts, countGets, hinv]
  | cons op rest ih =>
      cases op with
      | put v =>
          simp only [runOps, QOp.micro, runMicro, microStep, Option.some_bind] at hrun
          have hcp : countPuts (QOp.put v :: rest) = countPuts rest + 1 := by
            simp [countPuts, List.countP_cons]
          have hcg : countGets (QOp.put v :: rest) = countGets rest := by
            simp [countGets, List.countP_cons]
          rw [hcp] at hbound
          have hwrap : wrap32 (s0.counter + 1) = s0.counter + 1 := by
            apply wrap32_of_lt <;> simp only [hinv] <;> omega
          rw [hwrap] at hrun
          have := ih ⟨s0.queue ++ [v], s0.counter + 1⟩
            (by simp [hinv])
            (by simp only [List.length_append, List.length_singleton]; omega) hrun
          rw [hcp, hcg]
          constructor
          · exact this.1
          · rw [this.2]; push_cast; ring
      | get =>
          simp only [runOps, QOp.micro, runMicro, microStep] at hrun
          cases hq : s0.queue with
          | nil => rw [hq] at hrun; simp [runMicro] at hrun
          | cons x xs =>
              rw [hq] at hrun
              simp only [Option.some_bind, runMicro, microStep, Option.some_bind] at hrun
              have hpos : 0 < s0.counter := by
                rw [hinv, hq]; simp only [List.length_cons]; positivity
              rw [if_pos hpos] at hrun
              have hcp : countPuts (QOp.get :: rest) = countPuts rest := by
                simp [countPuts, List.countP_cons]
              have hcg : countGets (QOp.get :: rest) = countGets rest + 1 := by
                simp [countGets, List.countP_cons]
              have := ih ⟨xs, s0.counter - 1⟩
                (by simp only [hinv, hq, List.length_cons]; push_cast; ring)
                (by rw [hq] at hbound; simp only [List.length_cons] at hbound
                    simp only [List.length_cons] at *; omega) hrun
              rw [hcp, hcg]
              constructor
              · exact this.1
              · rw [this.2]; push_cast; ring

/-- Result of `TrackedQueue.size()`: a read of the shared counter. -/
def TrackedQueue.size (s : QState) : Int := s.counter

/-- Micro-level invariant behind the guarded decrement: starting from a
non-negative counter, any enabled micro schedule that performs fewer than
`2^31` increments (plus the initial value) keeps the counter non-negative
and bounded by initial value plus increments. -/
theorem runMicro_counter_bounds (sched : List MicroOp) (s0 s : QState)
    (h0 : 0 ≤ s0.counter)
    (hbound : s0.counter + countIncs sched < 2 ^ 31)
    (hrun : runMicro s0 sched = some s) :
    0 ≤ s.counter ∧ s.counter ≤ s0.counter + countIncs sched := by
  induction sched generalizing s0 with
  | nil =>
      simp only [runMicro, Option.some.injEq] at hrun
      subst hrun
      refine ⟨h0, ?_⟩
      simp [countIncs]
  | cons op rest ih =>
      cases op with
      | enqueue v =>
          simp only [runMicro, microStep, Option.some_bind] at hrun
          have hc : countIncs (MicroOp.enqueue v :: rest) = countIncs rest := by
            simp [countIncs, List.countP_cons]
          rw [hc] at hbound ⊢
          exact ih ⟨s0.queue ++ [v], s0.counter⟩ h0 hbound hrun
      | incCounter =>
          simp only [runMicro, microStep, Option.some_bind] at hrun
          have hc : countIncs (MicroOp.incCounter :: rest) = countIncs rest + 1 := by
            simp [countIncs, List.countP_cons]
          rw [hc] at hbound
          have hwrap : wrap32 (s0.counter + 1) = s0.counter + 1 := by
            apply wrap32_of_lt <;> omega
          rw [hwrap] at hrun
          have := ih ⟨s0.queue, s0.counter + 1⟩ (by simp; omega) (by simp; omega) hrun
          rw [hc]
          simp only at this
          omega
      | dequeue =>
          simp only [runMicro, microStep] at hrun
          cases hq : s0.queue with
          | nil => rw [hq] at hrun; simp at hrun
          | cons x xs =>
              rw [hq] at hrun
              simp only [Option.some_bind] at hrun
              have hc : countIncs (MicroOp.dequeue :: rest) = countIncs rest := by
                simp [countIncs, List.countP_cons]
              rw [hc] at hbound ⊢
              exact ih ⟨xs, s0.counter⟩ h0 hbound hrun
      | condDec =>
          simp only [runMicro, microStep, Option.some_bind] at hrun
          have hc : countIncs (MicroOp.condDec :: rest) = countIncs rest := by
            simp [countIncs, List.countP_cons]
          rw [hc] at hbound ⊢
          have := ih ⟨s0.queue, if 0 < s0.counter then s0.counter - 1 else s0.counter⟩
            (by dsimp only; split <;> omega)
            (by dsimp only; split <;> omega) hrun
          simp only at this
          constructor
          · exact this.1
          · have h2 := this.2
            split at h2 <;> omega

/-- Running `n` consecutive `put`s from a counter that stays strictly below
the int32 overflow point adds `n` to the counter and appends `n` items. -/
theorem runOps_replicate_put (n : Nat) (q : List Nat) (c : Int)
    (h0 : 0 ≤ c) (hbound : c + n < 2 ^ 31) :
    runOps ⟨q, c⟩ (List.replicate n (QOp.put 0)) =
      some ⟨q ++ List.replicate n 0, c + n⟩ := by
  induction n generalizing q c with
  | zero => simp [runOps]
  | succ m ih =>
      rw [List.replicate_succ]
      simp only [runOps, QOp.micro, runMicro, microStep, Option.some_bind]
      have hwrap : wrap32 (c + 1) = c + 1 := by
        apply wrap32_of_lt <;> omega
      rw [hwrap]
      rw [ih (q ++ [0]) (c + 1) (by omega) (by push_cast; omega)]
      congr 1
      refine congrArg₂ QState.mk ?_ (by push_cast; ring)
      rw [List.append_assoc]
      congr 1

/-- C1, counterexample.  The claim says `size()` equals the number of items
put but not yet got at every quiescent moment "even under concurrent
producers and consumers".  The schedule below is an interleaving of one
complete `put 0` and one complete `get` (both sub-step lists embed into it
in order): the consumer dequeues and runs its guarded decrement between the
producer's enqueue and increment, so the decrement is skipped; at the
quiescent end the queue is empty (zero undelivered items, one put and one
get completed) yet `size()` returns `1 ≠ 1 - 1`. -/
theorem C1_counterexample :
    runMicro QState.init
        [MicroOp.enqueue 0, MicroOp.dequeue, MicroOp.condDec, MicroOp.incCounter] =
      some ⟨[], 1⟩ ∧
    List.Sublist (QOp.put 0).micro
        [MicroOp.enqueue 0, MicroOp.dequeue, MicroOp.condDec, MicroOp.incCounter] ∧
    List.Sublist QOp.get.micro
        [MicroOp.enqueue 0, MicroOp.dequeue, MicroOp.condDec, MicroOp.incCounter] ∧
    TrackedQueue.size ⟨[], 1⟩ ≠ (1 : Int) - 1 :=
  ⟨by decide, by decide, by decide, by decide⟩

/-- C1 (amended).  Under serialized execution — each `put`/`get` completes
both of its micro-steps before the next operation starts — and with fewer
than `2^31` puts (no int32 overflow), `size()` at every quiescent moment
equals the number of puts minus the number of gets, which is the true number
of undelivered items (the queue length).  Under concurrent interleavings of
the sub-steps this fails permanently (see the counterexample). -/
theorem C1_size_exact_serialized (ops : List QOp) (s : QState)
    (hbound : countPuts ops < 2 ^ 31)
    (hrun : runOps QState.init ops = some s) :
    TrackedQueue.size s = (countPuts ops : Int) - countGets ops ∧
      TrackedQueue.size s = s.queue.length := by
  have h := runOps_invariant ops QState.init s (by rfl)
    (by simpa [QState.init] using hbound) hrun
  constructor
  · rw [TrackedQueue.size, h.2]
    simp [QState.init]
  · rw [TrackedQueue.size, h.1]

theorem C1_size_exact_serialized_witness :
    countPuts [QOp.put 5, QOp.put 7, QOp.get] < 2 ^ 31 ∧
    runOps QState.init [QOp.put 5, QOp.put 7, QOp.get] = some ⟨[7], 1⟩ ∧
    (TrackedQueue.size ⟨[7], 1⟩ =
        (countPuts [QOp.put 5, QOp.put 7, QOp.get] : Int) -
          countGets [QOp.put 5, QOp.put 7, QOp.get] ∧
      TrackedQueue.size ⟨[7], 1⟩ = ([7] : List Nat).length) :=
  ⟨by decide, by decide, C1_size_exact_serialized _ _ (by decide) (by decide)⟩

/-- C10, counterexample.  The claim asserts `size()` is non-negative after
every interleaving of `put` and `get`; but the shared counter is a wrapping
C int32, so `2^31` consecutive (serialized, fully completed) `put`s drive it
to `-2^31` and `size()` returns a negative value. -/
theorem C10_counterexample :
    runOps QState.init (List.replicate (2 ^ 31) (QOp.put 0)) =
      some ⟨List.replicate (2 ^ 31) 0, -(2 ^ 31)⟩ ∧
    TrackedQueue.size ⟨List.replicate (2 ^ 31) 0, -(2 ^ 31)⟩ < 0 := by
  constructor
  · have hsplit : List.replicate (2 ^ 31) (QOp.put 0) =
        List.replicate (2 ^ 31 - 1) (QOp.put 0) ++ [QOp.put 0] := by
      rw [← List.replicate_succ']
      norm_num
    rw [hsplit, runOps_append]
    simp only [QState.init]
    rw [runOps_replicate_put (2 ^ 31 - 1) [] 0 le_rfl (by norm_num)]
    simp only [Option.some_bind, runOps, QOp.micro, runMicro, microStep, Option.some_bind]
    have hwrap : wrap32 (0 + ((2 ^ 31 - 1 : Nat) : Int) + 1) = -(2 ^ 31) := by
      norm_num [wrap32]
    rw [hwrap]
    have hq : ([] : List Nat) ++ List.replicate (2 ^ 31 - 1) 0 ++ [0] =
        List.replicate (2 ^ 31) 0 := by
      rw [List.nil_append, ← List.replicate_succ']
      norm_num
    rw [hq]
  · norm_num [TrackedQueue.size]

/-- C10 (amended).  Provided fewer than `2^31` increments occur (no int32
overflow), `size()` never returns a negative value: the guarded decrement in
`get` only fires when the counter is strictly positive, so the counter stays
non-negative after every interleaving of `put`/`get` micro-steps, including
skewed interleavings that decouple it from the true queue length. -/
theorem C10_size_nonneg (sched : List MicroOp) (s : QState)
    (hbound : countIncs sched < 2 ^ 31)
    (hrun : runMicro QState.init sched = some s) :
    0 ≤ TrackedQueue.size s :=
  (runMicro_counter_bounds sched QState.init s le_rfl
    (by simpa [QState.init] using hbound) hrun).1

theorem C10_size_nonneg_witness :
    countIncs [MicroOp.enqueue 3, MicroOp.incCounter, MicroOp.dequeue, MicroOp.condDec] < 2 ^ 31 ∧
    runMicro QState.init
        [MicroOp.enqueue 3, MicroOp.incCounter, MicroOp.dequeue, MicroOp.condDec] =
      some ⟨[], 0⟩ ∧
    0 ≤ TrackedQueue.size ⟨[], 0⟩ :=
  ⟨by decide, by decide,
    C10_size_nonneg
      [MicroOp.enqueue 3, MicroOp.incCounter, MicroOp.dequeue, MicroOp.condDec]
      ⟨[], 0⟩ (by decide) (by decide)⟩

/-! ## Transcriber worker (SignalScribe/transcriber.py)

`transcriber_entry` writes `LOADING` into the shared status map, then calls
`transcriber_main`; if `transcriber_main` raises, the wrapper writes `ERROR`;
in every case the wrapper's final line (line 98, not in a `finally`) writes
`SHUTDOWN`.  `transcriber_main` checks that `ggml-<model>.bin` exists before
constructing the pywhispercpp `Model` (which would otherwise download it);
if the file is absent it writes `ERROR` and returns normally.  Otherwise it
loads the model, writes `RUNNING` and enters the steady-state loop. -/

/-- Status values of the transcriber worker process. -/
inductive TranscriberStatus where
  | initialised
  | loading
  | running
  | shutdown
  | error
  deriving DecidableEq, Repr

/-- Observable effects of one run of `transcriber_main`: the writes it makes
to `shared_dict["status"]` in order, whether any model download was
attempted, whether the pywhispercpp `Model` constructor was invoked, and
whether the call raised. -/
structure MainRun where
  statusWrites : List TranscriberStatus
  downloadAttempted : Bool
  modelLoadAttempted : Bool
  raised : Bool
  deriving DecidableEq, Repr

/-- Effects of `transcriber_main`.  When the `.bin` file is absent it logs,
writes `ERROR` and returns without touching pywhispercpp (no download, no
load).  When the file is present, `Model(...)` is invoked on the local file
(no download since the file exists); on success the worker writes `RUNNING`
and runs its loop to the sentinel, on failure the exception propagates. -/
def transcriberMainRun (binExists loadSucceeds : Bool) : MainRun :=
  if ¬ binExists then ⟨[.error], false, false, false⟩
  else if loadSucceeds then ⟨[.running], false, true, false⟩
  else ⟨[], false, true, true⟩

/-- Effects of `transcriber_entry`: `LOADING` first, then whatever
`transcriber_main` writes, then `ERROR` if (and only if) `transcriber_main`
raised, then unconditionally `SHUTDOWN`. -/
def transcriberEntryRun (binExists loadSucceeds : Bool) : MainRun :=
  let m := transcriberMainRun binExists loadSucceeds
  if m.raised then
    ⟨.loading :: m.statusWrites ++ [.error, .shutdown],
      m.downloadAttempted, m.modelLoadAttempted, false⟩
  else
    ⟨.loading :: m.statusWrites ++ [.shutdown],
      m.downloadAttempted, m.modelLoadAttempted, false⟩

/-- Startup poll in `SignalScribeApp.print_parameters`: a status of `ERROR`
or `SHUTDOWN` observed before `RUNNING` raises a startup failure. -/
def supervisorTreatsFatal (s : TranscriberStatus) : Bool :=
  match s with
  | .error => true
  | .shutdown => true
  | _ => false

/-- C2, counterexample.  With the model `.bin` absent, the worker does write
`ERROR`, but `transcriber_entry` then unconditionally overwrites the shared
status with `SHUTDOWN` (its last line runs after `transcriber_main` returns
normally), so the status map does NOT "subsequently show ERROR (never
SHUTDOWN)": the final write is `SHUTDOWN ≠ ERROR`, and the trace contains a
transition out of `ERROR`. -/
theorem C2_counterexample :
    (transcriberEntryRun false true).statusWrites =
      [TranscriberStatus.loading, TranscriberStatus.error, TranscriberStatus.shutdown] ∧
    (transcriberEntryRun false true).statusWrites.getLast? =
      some TranscriberStatus.shutdown ∧
    TranscriberStatus.shutdown ≠ TranscriberStatus.error := by
  decide

/-- C2 (amended).  If the selected model's `.bin` file is absent when the
worker starts, the worker writes `ERROR` without attempting any download or
model load and returns; the entry wrapper then unconditionally writes
`SHUTDOWN`, so the shared status map ends at `SHUTDOWN` and never reaches
`RUNNING`; the Supervisor's startup poll treats both `ERROR` and `SHUTDOWN`
seen before `RUNNING` as a fatal startup failure. -/
theorem C2_missing_model_flow (loadSucceeds : Bool) :
    (transcriberEntryRun false loadSucceeds).statusWrites =
      [TranscriberStatus.loading, TranscriberStatus.error, TranscriberStatus.shutdown] ∧
    (transcriberEntryRun false loadSucceeds).downloadAttempted = false ∧
    (transcriberEntryRun false loadSucceeds).modelLoadAttempted = false ∧
    TranscriberStatus.running ∉ (transcriberEntryRun false loadSucceeds).statusWrites ∧
    supervisorTreatsFatal TranscriberStatus.error = true ∧
    supervisorTreatsFatal TranscriberStatus.shutdown = true := by
  cases loadSucceeds <;> decide

/-! ### Steady-state loop of `transcriber_main` (lines 166-191)

Each iteration gets from the transcribing queue with a 0.5 s timeout.
`Empty` timeouts just continue; a `None` sentinel breaks the loop; a Job is
transcribed and forwarded to the output queue; any other exception hits the
final handler, which increments `shared_dict["error_count"]`, logs, and the
loop continues.  Nothing in the loop writes the status key. -/

/-- Event observed by one loop iteration. -/
inductive JobEvent where
  | timeoutEmpty
  | sentinel
  | jobOk
  | jobErr
  deriving DecidableEq, Repr

/-- Worker-visible loop state: the status key, the shared error counter,
the number of Jobs forwarded to the output queue, and whether the loop has
exited. -/
structure LoopState where
  status : TranscriberStatus
  errorCount : Nat
  outputCount : Nat
  terminated : Bool
  deriving DecidableEq, Repr

/-- State just after `shared_dict["status"] = TranscriberStatus.RUNNING`
and before the `while True`. -/
def loopStart (ec : Nat) : LoopState := ⟨.running, ec, 0, false⟩

/-- The steady-state loop over a stream of events. -/
def transcriberLoop (s : LoopState) : List JobEvent → LoopState
  | [] => s
  | e :: rest =>
      match e with
      | .sentinel => { s with terminated := true }
      | .timeoutEmpty => transcriberLoop s rest
      | .jobOk => transcriberLoop { s with outputCount := s.outputCount + 1 } rest
      | .jobErr => transcriberLoop { s with errorCount := s.errorCount + 1 } rest

/-- Number of erroring Jobs the loop actually processes: those before the
first sentinel. -/
def countJobErrs (es : List JobEvent) : Nat :=
  (es.takeWhile (fun e => e ≠ JobEvent.sentinel)).countP
    (fun e => e = JobEvent.jobErr)

theorem transcriberLoop_invariant (es : List JobEvent) (s : LoopState) :
    (transcriberLoop s es).status = s.status ∧
    (transcriberLoop s es).errorCount = s.errorCount + countJobErrs es ∧
    ((transcriberLoop s es).terminated = true ↔
      s.terminated = true ∨ JobEvent.sentinel ∈ es) := by
  induction es generalizing s with
  | nil => simp [transcriberLoop, countJobErrs]
  | cons e rest ih =>
      cases e with
      | sentinel =>
          simp [transcriberLoop, countJobErrs]
      | timeoutEmpty =>
          have h := ih s
          simp only [transcriberLoop]
          refine ⟨h.1, ?_, ?_⟩
          · rw [h.2.1]
            simp [countJobErrs, List.takeWhile, List.countP_cons]
          · rw [h.2.2]
            simp
      | jobOk =>
          have h := ih { s with outputCount := s.outputCount + 1 }
          simp only [transcriberLoop]
          refine ⟨h.1, ?_, ?_⟩
          · rw [h.2.1]
            simp [countJobErrs, List.takeWhile, List.countP_cons]
          · rw [h.2.2]
            simp
      | jobErr =>
          have h := ih { s with errorCount := s.errorCount + 1 }
          simp only [transcriberLoop]
          refine ⟨h.1, ?_, ?_⟩
          · rw [h.2.1]
            simp only [countJobErrs, List.takeWhile]
            simp [List.countP_cons]
            omega
          · rw [h.2.2]
            simp

/-- C7.  In the steady-state loop, each per-Job exception adds exactly one
to the shared `error_count` and the loop continues: over any event stream,
the final `error_count` is the initial one plus the number of erroring Jobs
processed, the status key never leaves `RUNNING`, and the worker terminates
only on the sentinel — never because of a per-Job exception. -/
theorem C7_per_job_errors_not_fatal (ec : Nat) (es : List JobEvent) :
    (transcriberLoop (loopStart ec) es).status = TranscriberStatus.running ∧
    (transcriberLoop (loopStart ec) es).errorCount = ec + countJobErrs es ∧
    ((transcriberLoop (loopStart ec) es).terminated = true ↔
      JobEvent.sentinel ∈ es) := by
  have h := transcriberLoop_invariant es (loopStart ec)
  refine ⟨h.1, h.2.1, ?_⟩
  rw [h.2.2]
  simp [loopStart]

/-! ## Application shutdown (SignalScribe/app.py, `SignalScribeApp._cleanup`)

`_cleanup` runs, in source order: `self.transcriber.stop()` (with the
comment "Shutdown transcriber first (it has a process)"), then
`self.watcher.stop()`, then `self.decoder.stop()`, then `self.output.stop()`.
`Transcriber.stop` sends the `None` sentinel; `FolderWatcher` defines
`stop`; but `Decoder` and `Output` define `shutdown`, not `stop`, so the
third call raises `AttributeError` and aborts `_cleanup` (the exception is
logged and re-raised by `SignalScribeApp.stop`). -/

/-- Pipeline components owned by the application. -/
inductive Component where
  | watcher
  | decoder
  | transcriber
  | output
  deriving DecidableEq, Repr

/-- Names of the lifecycle methods involved in shutdown. -/
inductive MethodName where
  | stop
  | shutdown
  deriving DecidableEq, Repr

/-- Lifecycle methods each component class actually defines in the source:
`Transcriber.stop`, `FolderWatcher.stop`, `Decoder.shutdown`,
`Output.shutdown`. -/
def lifecycleMethods : Component → List MethodName
  | .transcriber => [.stop]
  | .watcher => [.stop]
  | .decoder => [.shutdown]
  | .output => [.shutdown]

/-- Method calls `SignalScribeApp._cleanup` makes, in source order (after
`setup`, every component is non-None). -/
def cleanupCalls : List (Component × MethodName) :=
  [(.transcriber, .stop), (.watcher, .stop), (.decoder, .stop), (.output, .stop)]

/-- Calls that actually execute: Python raises `AttributeError` at the first
call of a method the target class does not define, aborting `_cleanup`. -/
def executedCleanupCalls : List (Component × MethodName) :=
  cleanupCalls.takeWhile (fun cm => cm.2 ∈ lifecycleMethods cm.1)

/-- C3, counterexample.  The first component `_cleanup` stops is the
Transcriber, not the Watcher, and the overall call order is not the claimed
Watcher, Decoder, Transcriber, Output. -/
theorem C3_counterexample :
    (cleanupCalls.map Prod.fst).head? = some Component.transcriber ∧
    Component.transcriber ≠ Component.watcher ∧
    cleanupCalls.map Prod.fst ≠
      [Component.watcher, Component.decoder, Component.transcriber, Component.output] := by
  decide

/-- C3 (amended).  The shutdown sequence stops the Transcriber first (its
`stop` pushes the sentinel), then the Watcher; it then calls `stop()` on the
Decoder and on the Output, but those classes define `shutdown()` rather than
`stop()`, so the Decoder call raises `AttributeError` and cleanup aborts:
only the Transcriber and the Watcher are actually stopped. -/
theorem C3_cleanup_order :
    cleanupCalls.map Prod.fst =
      [Component.transcriber, Component.watcher, Component.decoder, Component.output] ∧
    executedCleanupCalls = [(.transcriber, .stop), (.watcher, .stop)] ∧
    MethodName.stop ∉ lifecycleMethods Component.decoder ∧
    MethodName.stop ∉ lifecycleMethods Component.output := by
  decide

/-! ## ModelManager (SignalScribe/model.py)

`_get_missing_files` walks `required_files` (`["ggml"]`, plus `"coreml"` on
Darwin).  For `coreml` it only checks that the extracted directory exists;
for `ggml` it requires the file to exist AND its SHA-256 to equal the
catalog's.  `ensure_models_exist` returns `True` with no download prompt iff
that list is empty. -/

/-- Catalog data for one asset (`MODEL_INFO[...]["files"][...]`). -/
structure AssetInfo where
  filename : String
  sha256 : String
  deriving DecidableEq, Repr

/-- Catalog data for one model: its `ggml` (bin) and `coreml` assets. -/
structure ModelFiles where
  ggml : AssetInfo
  coreml : AssetInfo
  deriving DecidableEq, Repr

/-- The `MODEL_INFO["large-v3-turbo"]["files"]` catalog entry. -/
def modelInfoLargeV3Turbo : ModelFiles :=
  ⟨⟨"ggml-large-v3-turbo.bin",
    "1fc70f774d38eb169993ac391eea357ef47c88757ef72ee5943879b7e8e2bc69"⟩,
   ⟨"ggml-large-v3-turbo-encoder.mlmodelc.zip",
    "84bedfe895bd7b5de6e8e89a0803dfc5addf8c0c5bc4c937451716bf7cf7988a"⟩⟩

/-- The per-model required file kinds. -/
inductive FileType where
  | ggml
  | coreml
  deriving DecidableEq, Repr

/-- `self.required_files`: `["ggml"]`, with `"coreml"` appended on macOS. -/
def requiredFiles (isDarwin : Bool) : List FileType :=
  if isDarwin then [.ggml, .coreml] else [.ggml]

/-- On-disk state the checks read: presence and SHA-256 of the `.bin` file,
and presence of the extracted coreml directory.  `coremlDirHash` records the
on-disk SHA-256 of the coreml asset only so that the claim can be stated:
the source never reads any hash for coreml. -/
structure DiskState where
  binPresent : Bool
  binHash : String
  coremlDirPresent : Bool
  coremlDirHash : String
  deriving DecidableEq, Repr

/-- `ModelManager._get_missing_files`: coreml is missing iff its extracted
directory does not exist (existence only, no hash); ggml is missing unless
the file exists and `_calculate_hash` of it equals the catalog `sha256`. -/
def getMissingFiles (isDarwin : Bool) (info : ModelFiles) (disk : DiskState) :
    List FileType :=
  (requiredFiles isDarwin).filter (fun ft =>
    match ft with
    | .coreml => ¬ disk.coremlDirPresent
    | .ggml => ¬ (disk.binPresent ∧ disk.binHash = info.ggml.sha256))

/-- The "usable" path: `ensure_models_exist` returns `True` immediately,
prompting no download, iff `_get_missing_files` came back empty. -/
def modelUsableWithoutDownload (isDarwin : Bool) (info : ModelFiles)
    (disk : DiskState) : Prop :=
  getMissingFiles isDarwin info disk = []

instance (isDarwin : Bool) (info : ModelFiles) (disk : DiskState) :
    Decidable (modelUsableWithoutDownload isDarwin info disk) := by
  unfold modelUsableWithoutDownload
  infer_instance

/-- C4, counterexample.  On macOS, with the bin file present and
hash-matching but the coreml asset's on-disk hash different from the
catalog's, the model is still treated as usable (no download prompted,
selection succeeds) because only the extracted directory's existence is
checked — so "every required asset's on-disk SHA-256 equals the catalog's
sha256" is not required, and the coreml asset the Transcriber uses need not
hash-match the catalog. -/
theorem C4_counterexample :
    modelUsableWithoutDownload true modelInfoLargeV3Turbo
      ⟨true, "1fc70f774d38eb169993ac391eea357ef47c88757ef72ee5943879b7e8e2bc69",
        true, "0000000000000000000000000000000000000000000000000000000000000000"⟩ ∧
    ("0000000000000000000000000000000000000000000000000000000000000000" : String) ≠
      modelInfoLargeV3Turbo.coreml.sha256 := by
  constructor
  · decide
  · decide

/-- C4 (amended).  A model is treated as usable (no download prompted,
selection succeeds) iff the bin file exists and its on-disk SHA-256 equals
the catalog's `sha256`, and, on platforms requiring the coreml asset, the
extracted coreml directory exists; no hash comparison is performed for the
coreml asset. -/
theorem C4_usable_iff (isDarwin : Bool) (info : ModelFiles) (disk : DiskState) :
    modelUsableWithoutDownload isDarwin info disk ↔
      (disk.binPresent = true ∧ disk.binHash = info.ggml.sha256) ∧
        (isDarwin = true → disk.coremlDirPresent = true) := by
  by_cases hh : disk.binHash = info.ggml.sha256 <;>
    cases isDarwin <;> cases hb : disk.binPresent <;> cases hc : disk.coremlDirPresent <;>
    simp [modelUsableWithoutDownload, getMissingFiles, requiredFiles, hb, hc, hh]

/-! ## Highlight-rules reload (SignalScribe/watcher.py, `FolderWatcherHandler._update_colors`)

`yaml.load` errors are caught and the method returns.  Otherwise every
`(color, phrases)` entry whose color is in `rich.color.ANSI_COLOR_NAMES`
and whose value is a YAML list is kept (each phrase `str()`-converted).
Only when the kept entries are non-empty AND differ from the handler's
current rules does it replace `self.colors` and, holding
`shared_colors_lock`, `clear()` then `update()` the shared map — modelled
here as one atomic wholesale replacement, which is what a reader serialised
by the same lock can observe. -/

/-- Shape of a YAML mapping value as `_update_colors` distinguishes it:
either a list (whose elements are `str()`-converted) or anything else. -/
inductive YamlValue where
  | strList (phrases : List String)
  | other
  deriving DecidableEq, Repr

/-- Validation loop of `_update_colors`: keep entries whose color name is a
known terminal color and whose value is a list. -/
def validColors (ansiNames : List String) (parsed : List (String × YamlValue)) :
    List (String × List String) :=
  parsed.filterMap (fun kv =>
    if kv.1 ∈ ansiNames then
      match kv.2 with
      | .strList ps => some (kv.1, ps)
      | .other => none
    else none)

/-- The handler's own rules (`self.colors`) and the shared map contents. -/
structure ColorsState where
  own : List (String × List String)
  shared : List (String × List String)
  deriving DecidableEq, Repr

/-- Outcome of `yaml.load` on the colors file. -/
inductive ParseOutcome where
  | yamlError
  | parsed (d : List (String × YamlValue))
  deriving DecidableEq, Repr

/-- Effect of one `_update_colors` call on the rule state. -/
def updateColors (ansiNames : List String) (outcome : ParseOutcome)
    (st : ColorsState) : ColorsState :=
  match outcome with
  | .yamlError => st
  | .parsed d =>
      let valid := validColors ansiNames d
      if valid ≠ [] ∧ valid ≠ st.own then ⟨valid, valid⟩ else st

/-- C9.  If reloading yields no valid entries (in particular when every
color name is unknown to the terminal palette, or every value is not a
list), or yields a rule set equal to the current one, both the handler's
rules and the shared map are left entirely unchanged; and whenever the
shared map does change it becomes exactly the freshly validated rule set in
one wholesale replacement under the lock — never a partial merge.  A YAML
parse error also leaves everything unchanged. -/
theorem C9_colors_reload (ansiNames : List String)
    (d : List (String × YamlValue)) (st : ColorsState) :
    (validColors ansiNames d = [] ∨ validColors ansiNames d = st.own →
      updateColors ansiNames (.parsed d) st = st) ∧
    ((∀ kv ∈ d, kv.1 ∉ ansiNames) → validColors ansiNames d = []) ∧
    ((∀ kv ∈ d, kv.2 = YamlValue.other) → validColors ansiNames d = []) ∧
    ((updateColors ansiNames (.parsed d) st).shared = st.shared ∨
      (updateColors ansiNames (.parsed d) st).shared = validColors ansiNames d) ∧
    updateColors ansiNames .yamlError st = st := by
  refine ⟨?_, ?_, ?_, ?_, rfl⟩
  · intro h
    unfold updateColors
    rcases h with h | h <;> simp [h]
  · intro h
    unfold validColors
    rw [List.filterMap_eq_nil_iff]
    intro kv hkv
    simp [h kv hkv]
  · intro h
    unfold validColors
    rw [List.filterMap_eq_nil_iff]
    intro kv hkv
    rw [h kv hkv]
    split <;> rfl
  · simp only [updateColors]
    split
    · right; rfl
    · left; rfl

theorem C9_colors_reload_witness :
    updateColors ["red"] (.parsed [("blue", YamlValue.strList ["alert"])])
      ⟨[("red", ["mayday"])], [("red", ["mayday"])]⟩ =
      ⟨[("red", ["mayday"])], [("red", ["mayday"])]⟩ :=
  (C9_colors_reload ["red"] [("blue", YamlValue.strList ["alert"])]
    ⟨[("red", ["mayday"])], [("red", ["mayday"])]⟩).1 (Or.inl (by decide))

/-! ## Decoder (SignalScribe/decoder.py, `Decoder._load_audio`)

For paths ending in `.wav`, `wav_to_np` reads the file, discards the first
44 bytes (`f.read(44)`), reinterprets the remaining buffer as `np.int16`
(native little-endian signed 16-bit; `np.frombuffer` raises `ValueError`
when the buffer length is odd) and converts to float32 by dividing by
`np.iinfo(np.int16).max = 32767`.  The float32 division is modelled by the
exact rational value.  Non-`.wav` paths go through the ffmpeg transcoding
branch, which spawns an external process and is not modelled further. -/

/-- Value of a little-endian signed 16-bit sample from its two bytes. -/
def int16OfPair (lo hi : Nat) : Int :=
  let v := lo + 256 * hi
  if v < 32768 then (v : Int) else (v : Int) - 65536

/-- Reinterpretation of a byte buffer as consecutive little-endian `int16`
samples (`np.frombuffer(raw, dtype=np.int16)`). -/
def decodeInt16LE : List Nat → List Int
  | lo :: hi :: rest => int16OfPair lo hi :: decodeInt16LE rest
  | _ => []

/-- Float32 conversion of one sample, `sample / 32767`, modelled as the
exact rational. -/
def toSampleQ (s : Int) : ℚ := (s : ℚ) / 32767

/-- The `wav_to_np` helper: drop the 44-byte header, decode the rest as
int16 and scale each sample by `1 / 32767`; `none` models the `ValueError`
`np.frombuffer` raises on an odd-length buffer. -/
def wavToNp (bytes : List Nat) : Option (List ℚ) :=
  let raw := bytes.drop 44
  if raw.length % 2 = 0 then some ((decodeInt16LE raw).map toSampleQ)
  else none

/-- Result of `Decoder._load_audio`: the `.wav` branch produces samples (or
raises), any other extension is handed to the ffmpeg branch. -/
inductive LoadResult where
  | wavSamples (samples : Option (List ℚ))
  | viaFfmpeg
  deriving DecidableEq

/-- `Decoder._load_audio` dispatch on `media_file_path.endswith(".wav")`. -/
def loadAudio (path : List Char) (bytes : List Nat) : LoadResult :=
  if List.isSuffixOf (String.toList ".wav") path then LoadResult.wavSamples (wavToNp bytes)
  else LoadResult.viaFfmpeg

theorem decodeInt16LE_length : ∀ l : List Nat, (decodeInt16LE l).length = l.length / 2
  | [] => by simp [decodeInt16LE]
  | [x] => by simp [decodeInt16LE]
  | lo :: hi :: rest => by
      simp only [decodeInt16LE, List.length_cons, decodeInt16LE_length rest]
      omega

theorem decodeInt16LE_getD : ∀ (l : List Nat) (i : Nat), 2 * i + 1 < l.length →
    (decodeInt16LE l).getD i 0 = int16OfPair (l.getD (2 * i) 0) (l.getD (2 * i + 1) 0)
  | [], i, h => by simp at h
  | [x], i, h => by
      exfalso
      simp only [List.length_singleton] at h
      omega
  | lo :: hi :: rest, 0, h => by simp [decodeInt16LE]
  | lo :: hi :: rest, i + 1, h => by
      have ih := decodeInt16LE_getD rest i
        (by simp only [List.length_cons] at h; omega)
      have h2 : 2 * (i + 1) = 2 * i + 1 + 1 := by ring
      have h3 : 2 * (i + 1) + 1 = 2 * i + 1 + 1 + 1 := by ring
      simp only [decodeInt16LE, h2, h3, List.getD_cons_succ, ih]

theorem getD_drop_aux {α : Type} (d : α) :
    ∀ (l : List α) (n k : Nat), (l.drop n).getD k d = l.getD (n + k) d
  | _, 0, _ => by simp
  | [], _ + 1, _ => by simp
  | x :: xs, n + 1, k => by
      have hidx : n + 1 + k = n + k + 1 := by omega
      rw [List.drop_succ_cons, getD_drop_aux d xs n k, hidx, List.getD_cons_succ]

theorem getD_map_rat (f : Int → ℚ) :
    ∀ (l : List Int) (i : Nat), i < l.length → (l.map f).getD i 0 = f (l.getD i 0)
  | [], i, h => by simp at h
  | x :: xs, 0, _ => by simp
  | x :: xs, i + 1, h => by
      simp only [List.map_cons, List.getD_cons_succ]
      exact getD_map_rat f xs i (by simpa using h)

/-- C5.  For every input path ending in `.wav` whose content has an even
number of bytes after the 44-byte header, `Decoder._load_audio` returns the
waveform obtained by skipping exactly the first 44 bytes, interpreting the
remaining bytes as consecutive signed 16-bit little-endian samples, and
dividing each sample by 32767 (the float32 conversion modelled exactly):
there are `(length - 44) / 2` samples and the `i`-th is the signed value of
bytes `44 + 2i, 45 + 2i` over 32767. -/
theorem C5_wav_decode (path : List Char) (bytes : List Nat)
    (hw : List.isSuffixOf (String.toList ".wav") path = true)
    (he : (bytes.length - 44) % 2 = 0) :
    ∃ samples : List ℚ,
      loadAudio path bytes = LoadResult.wavSamples (some samples) ∧
      samples.length = (bytes.length - 44) / 2 ∧
      ∀ i, 2 * i + 1 < bytes.length - 44 →
        samples.getD i 0 =
          ((int16OfPair (bytes.getD (44 + 2 * i) 0) (bytes.getD (44 + (2 * i + 1)) 0) : Int) : ℚ)
            / 32767 := by
  have hlen : (bytes.drop 44).length = bytes.length - 44 := List.length_drop 44 bytes
  refine ⟨(decodeInt16LE (bytes.drop 44)).map toSampleQ, ?_, ?_, ?_⟩
  · rw [loadAudio, if_pos hw]
    rw [wavToNp]
    simp only [hlen, he, if_pos]
  · rw [List.length_map, decodeInt16LE_length, hlen]
  · intro i hi
    rw [getD_map_rat _ _ i
        (by rw [decodeInt16LE_length, hlen]; omega),
      decodeInt16LE_getD (bytes.drop 44) i (by rw [hlen]; exact hi),
      getD_drop_aux, getD_drop_aux, toSampleQ]

theorem C5_wav_decode_witness :
    List.isSuffixOf (String.toList ".wav") (String.toList "a.wav") = true ∧
    (((List.replicate 44 0 ++ [1, 128] : List Nat)).length - 44) % 2 = 0 ∧
    (∃ samples : List ℚ,
      loadAudio (String.toList "a.wav") (List.replicate 44 0 ++ [1, 128]) =
        LoadResult.wavSamples (some samples) ∧
      samples.length = ((List.replicate 44 0 ++ [1, 128] : List Nat).length - 44) / 2 ∧
      ∀ i, 2 * i + 1 < (List.replicate 44 0 ++ [1, 128] : List Nat).length - 44 →
        samples.getD i 0 =
          ((int16OfPair ((List.replicate 44 0 ++ [1, 128] : List Nat).getD (44 + 2 * i) 0)
              ((List.replicate 44 0 ++ [1, 128] : List Nat).getD (44 + (2 * i + 1)) 0) : Int) : ℚ)
            / 32767) :=
  ⟨by decide, by decide, C5_wav_decode _ _ (by decide) (by decide)⟩

/-! ## Output CSV (SignalScribe/output.py, `Output._output_loop`)

For each transcription taken off the output queue the loop formats
`added_timestamp.strftime("%Y-%m-%d %H:%M:%S")` (the Job's creation time,
`datetime.now()` local time in the watcher), creates the CSV file with the
single header row `Timestamp,File Path,Duration,Transcription` if the file
does not exist, and appends one row
`[timestamp, filepath, f"{duration:.2f}", text]`.  The CSV file is modelled
as an optional list of rows (`none` = file absent); `duration` (a Python
float) is modelled as an exact rational and the `"%.2f"` rendering by
round-half-to-even at two decimals. -/

/-- Wall-clock timestamp fields as `strftime` reads them. -/
structure LocalDateTime where
  year : Nat
  month : Nat
  day : Nat
  hour : Nat
  minute : Nat
  second : Nat
  deriving DecidableEq, Repr

/-- Zero-padded decimal rendering (`%0{width}d`). -/
def padNum (width n : Nat) : String :=
  let s := toString n
  if s.length < width then String.mk (List.replicate (width - s.length) '0') ++ s
  else s

/-- The `"%Y-%m-%d %H:%M:%S"` format applied to the Job's creation time. -/
def formatTimestamp (t : LocalDateTime) : String :=
  padNum 4 t.year ++ "-" ++ padNum 2 t.month ++ "-" ++ padNum 2 t.day ++ " " ++
    padNum 2 t.hour ++ ":" ++ padNum 2 t.minute ++ ":" ++ padNum 2 t.second

/-- Floor of a rational (numerator and denominator are already in lowest
terms with a positive denominator). -/
def ratFloor (x : ℚ) : Int := Int.fdiv x.num x.den

/-- Round to the nearest integer, ties to even, as float formatting does. -/
def roundHalfEven (x : ℚ) : Int :=
  let f := ratFloor x
  let r := x - (f : ℚ)
  if r < 1 / 2 then f
  else if (1 : ℚ) / 2 < r then f + 1
  else if 2 ∣ f then f
  else f + 1

/-- The `f"{duration:.2f}"` rendering of the transcription duration. -/
def fmt2dec (q : ℚ) : String :=
  let n := roundHalfEven (q * 100)
  let sign := if n < 0 then "-" else ""
  sign ++ toString (n.natAbs / 100) ++ "." ++ padNum 2 (n.natAbs % 100)

/-- Fields of a completed Job that the output loop reads. -/
structure JobRec where
  added : LocalDateTime
  filepath : String
  text : String
  duration : ℚ
  deriving DecidableEq, Repr

/-- The header row written when the CSV file is first created. -/
def csvHeader : List String := ["Timestamp", "File Path", "Duration", "Transcription"]

/-- The row appended for one completed Job. -/
def csvRow (j : JobRec) : List String :=
  [formatTimestamp j.added, j.filepath, fmt2dec j.duration, j.text]

/-- Effect of one loop iteration on the CSV file: create it with the header
if absent, then append exactly one row. -/
def outputStep (fs : Option (List (List String))) (j : JobRec) :
    Option (List (List String)) :=
  let rows := match fs with
    | none => [csvHeader]
    | some rows => rows
  some (rows ++ [csvRow j])

/-- The output loop over a stream of completed Jobs. -/
def outputRun (fs : Option (List (List String))) (js : List JobRec) :
    Option (List (List String)) :=
  js.foldl outputStep fs

theorem outputRun_some (js : List JobRec) : ∀ rows,
    outputRun (some rows) js = some (rows ++ js.map csvRow) := by
  induction js with
  | nil => intro rows; simp [outputRun]
  | cons j rest ih =>
      intro rows
      simp only [outputRun, List.foldl_cons, outputStep] at *
      rw [ih (rows ++ [csvRow j])]
      simp

/-- C8.  The Output stage creates the CSV file with the header row
`Timestamp,File Path,Duration,Transcription` on its first write and appends
thereafter; each completed Job produces exactly one row, in arrival order,
whose Timestamp is the Job's creation time formatted `YYYY-MM-DD HH:MM:SS`
(zero-padded local wall-clock fields) and whose Duration is the
transcription wall-clock seconds rendered with two decimals; the format is
checked on concrete values in the last two conjuncts. -/
theorem C8_csv_format :
    (∀ rows js, outputRun (some rows) js = some (rows ++ js.map csvRow)) ∧
    outputRun none [] = none ∧
    (∀ j js, outputRun none (j :: js) = some (csvHeader :: (j :: js).map csvRow)) ∧
    formatTimestamp ⟨2026, 1, 2, 3, 4, 5⟩ = "2026-01-02 03:04:05" ∧
    fmt2dec (5 / 4 : ℚ) = "1.25" := by
  refine ⟨fun rows js => outputRun_some js rows, rfl, fun j js => ?_, ?_, ?_⟩
  · simp only [outputRun, List.foldl_cons, outputStep]
    have h := outputRun_some js ([csvHeader] ++ [csvRow j])
    simp only [outputRun] at h
    rw [h]
    simp
  · decide
  · have h1 : (5 / 4 : ℚ) * 100 = 125 := by norm_num
    have h2 : ratFloor 125 = 125 := by decide
    have h3 : roundHalfEven 125 = 125 := by
      simp only [roundHalfEven, h2]
      norm_num
    rw [fmt2dec, h1, h3]
    decide

/-! ## Console highlighting (SignalScribe/output.py, `Output._highlight_text`)

For each `(color, phrases)` entry of the (copied) shared colors dictionary,
in dictionary order, and for each phrase in its list order, the method finds
every occurrence of `re.escape(phrase.lower())` in `search_text` (a lowered
copy of the transcript in which previously matched ranges have been
overwritten with spaces) via `re.finditer` — literal, leftmost,
non-overlapping matches.  It then iterates the matches from last to first,
inserting `[/color]` at the match end and `[color]` at the match start into
`highlighted_text`, and blanking the matched range in `search_text`.
Crucially, positions always refer to `search_text`, whose length never
changes, while `highlighted_text` grows with every inserted tag.  Text is
`List Char` and `str.lower()` is modelled on the ASCII range. -/

/-- ASCII case folding of one character. -/
def lowerChar (c : Char) : Char :=
  if 'A' ≤ c ∧ c ≤ 'Z' then Char.ofNat (c.toNat + 32) else c

/-- `str.lower()` over the ASCII range. -/
def lowerText (s : List Char) : List Char := s.map lowerChar

/-- `insert_string` from utils.py: `string[:position] + insert + string[position:]`. -/
def insertString (s ins : List Char) (pos : Nat) : List Char :=
  s.take pos ++ ins ++ s.drop pos

/-- Overwriting of the matched range `[a, b)` with spaces in the scratch
string. -/
def blankRange (s : List Char) (a b : Nat) : List Char :=
  s.take a ++ List.replicate (b - a) ' ' ++ s.drop b

/-- Scan of `re.finditer` for a literal (escaped) pattern: leftmost
non-overlapping matches.  `i` is the absolute index of the head of the
remaining text; `skip` is the number of positions still covered by the
previous match (the scanner resumes after a match's end). -/
def findAuxS (pat : List Char) : List Char → Nat → Nat → List (Nat × Nat)
  | [], _, _ => []
  | _ :: rest, i, skip + 1 => findAuxS pat rest (i + 1) skip
  | c :: rest, i, 0 =>
      if pat ≠ [] ∧ pat.isPrefixOf (c :: rest) then
        (i, i + pat.length) :: findAuxS pat rest (i + 1) (pat.length - 1)
      else findAuxS pat rest (i + 1) 0

/-- All matches of the literal pattern in the text; an empty pattern gives
`re.finditer`'s zero-width match at every position. -/
def findMatches (pat text : List Char) : List (Nat × Nat) :=
  if pat = [] then (List.range (text.length + 1)).map (fun k => (k, k))
  else findAuxS pat text 0 0

/-- The `f"[{color}]"` opening tag. -/
def openingTag (color : List Char) : List Char := '[' :: (color ++ [']'])

/-- The `f"[/{color}]"` closing tag. -/
def closingTag (color : List Char) : List Char := '[' :: '/' :: (color ++ [']'])

/-- The two strings the highlighting pass threads along: the growing
`highlighted_text` and the fixed-length scratch `search_text`. -/
structure HState where
  highlighted : List Char
  search : List Char
  deriving DecidableEq, Repr

/-- Processing of one phrase: positions are computed once from the current
scratch string, then each match (last to first) has the closing and opening
tags inserted into the highlighted text at the scratch-string positions and
its range blanked in the scratch string. -/
def applyPhrase (color phrase : List Char) (st : HState) : HState :=
  (findMatches (lowerText phrase) st.search).reverse.foldl
    (fun acc se =>
      ⟨insertString (insertString acc.highlighted (closingTag color) se.2)
          (openingTag color) se.1,
        blankRange acc.search se.1 se.2⟩)
    st

/-- `Output._highlight_text`: empty text or an empty rules dictionary is
returned unchanged; otherwise colors are processed in dictionary order and
phrases in list order over a state seeded with the text and its lowered
copy. -/
def highlightText (text : List Char)
    (colors : List (List Char × List (List Char))) : List Char :=
  if text = [] then text
  else if colors = [] then text
  else
    (colors.foldl
      (fun st (cp : List Char × List (List Char)) =>
        cp.2.foldl (fun st2 p => applyPhrase cp.1 p st2) st)
      (⟨text, lowerText text⟩ : HState)).highlighted

/-- C6, counterexample.  Rules `[("c", ["ab", "cd"])]` on transcript
`"ab cd"`: the claim requires both occurrences to be wrapped, i.e. the
output to contain `[c]cd[/c]`; but after wrapping `ab` the highlighted text
has grown by 7 characters, so the tags for the `cd` match (still at
scratch positions 3..5) land inside the previous tags, producing
`[c][c]ab[/c][/c] cd` — `cd` occurs in the transcript yet no wrapped
occurrence `[c]cd[/c]` occurs in the output. -/
theorem C6_counterexample :
    highlightText ("ab cd".toList) [("c".toList, ["ab".toList, "cd".toList])] =
      "[c][c]ab[/c][/c] cd".toList ∧
    findMatches ("cd".toList) (lowerText ("ab cd".toList)) = [(3, 5)] ∧
    findMatches ("[c]cd[/c]".toList)
      (highlightText ("ab cd".toList) [("c".toList, ["ab".toList, "cd".toList])]) = [] :=
  ⟨by decide, by decide, by decide⟩

/-- Tag-insertion component of `applyPhrase`: the effect of the per-match
loop on the highlighted text alone. -/
def insertTags (color : List Char) (ps : List (Nat × Nat)) (s : List Char) :
    List Char :=
  ps.reverse.foldl
    (fun acc se =>
      insertString (insertString acc (closingTag color) se.2) (openingTag color) se.1)
    s

/-- Translation of both components of a match by `k`. -/
def shiftPair (k : Nat) (se : Nat × Nat) : Nat × Nat := (k + se.1, k + se.2)

/-- Modelled from the spec's words, for comparison with the code: wrap every
case-insensitive occurrence of the phrase (leftmost, non-overlapping) with
the color's opening and closing tags, leaving everything else in place. -/
def specWrapSingle (color phrase : List Char) : List Char → List Char
  | [] => []
  | c :: rest =>
      if h : phrase ≠ [] ∧ (lowerText phrase).isPrefixOf (lowerText (c :: rest)) then
        openingTag color ++ (c :: rest).take phrase.length ++ closingTag color ++
          specWrapSingle color phrase ((c :: rest).drop phrase.length)
      else c :: specWrapSingle color phrase rest
termination_by t => t.length
decreasing_by
  · simp only [List.length_drop, List.length_cons]
    have hp : 0 < phrase.length := List.length_pos.mpr h.1
    omega
  · simp only [List.length_cons]
    omega

theorem insertTags_cons (color : List Char) (q : Nat × Nat)
    (ps : List (Nat × Nat)) (s : List Char) :
    insertTags color (q :: ps) s =
      insertString (insertString (insertTags color ps s) (closingTag color) q.2)
        (openingTag color) q.1 := by
  simp [insertTags, List.foldl_append]

theorem applyPhrase_highlighted (color phrase : List Char) (st : HState) :
    (applyPhrase color phrase st).highlighted =
      insertTags color (findMatches (lowerText phrase) st.search) st.highlighted := by
  rw [applyPhrase, insertTags]
  generalize (findMatches (lowerText phrase) st.search).reverse = l
  induction l generalizing st with
  | nil => rfl
  | cons q rest ih =>
      simp only [List.foldl_cons]
      exact ih ⟨insertString (insertString st.highlighted (closingTag color) q.2)
          (openingTag color) q.1,
        blankRange st.search q.1 q.2⟩

theorem insertString_zero (s ins : List Char) : insertString s ins 0 = ins ++ s := by
  simp [insertString]

theorem insertString_at_length (u w ins : List Char) :
    insertString (u ++ w) ins u.length = u ++ (ins ++ w) := by
  simp [insertString]

theorem insertString_append (u w ins : List Char) (p : Nat) :
    insertString (u ++ w) ins (u.length + p) = u ++ insertString w ins p := by
  simp [insertString, List.take_append_eq_append_take, List.drop_append_eq_append_drop,
    List.take_of_length_le, List.drop_eq_nil_of_le]

theorem map_shiftPair_shiftPair (a b : Nat) (l : List (Nat × Nat)) :
    (l.map (shiftPair b)).map (shiftPair a) = l.map (shiftPair (a + b)) := by
  rw [List.map_map]
  apply List.map_congr_left
  intro se _
  simp only [Function.comp_apply, shiftPair, Prod.mk.injEq]
  omega

theorem insertTags_shift (color : List Char) :
    ∀ (ps : List (Nat × Nat)) (u w : List Char),
      insertTags color (ps.map (shiftPair u.length)) (u ++ w) =
        u ++ insertTags color ps w
  | [], _, _ => rfl
  | q :: ps, u, w => by
      simp only [List.map_cons, insertTags_cons, shiftPair]
      rw [insertTags_shift color ps u w, insertString_append, insertString_append]

theorem findAuxS_shift (pat : List Char) :
    ∀ (t : List Char) (i skip : Nat),
      findAuxS pat t i skip = (findAuxS pat t 0 skip).map (shiftPair i)
  | [], _, _ => by simp [findAuxS]
  | c :: rest, i, skip + 1 => by
      have h1 : i + (0 + 1) = i + 1 := by omega
      show findAuxS pat rest (i + 1) skip =
        (findAuxS pat rest (0 + 1) skip).map (shiftPair i)
      rw [findAuxS_shift pat rest (i + 1) skip, findAuxS_shift pat rest (0 + 1) skip,
        map_shiftPair_shiftPair, h1]
  | c :: rest, i, 0 => by
      have h1 : i + (0 + 1) = i + 1 := by omega
      by_cases h : pat ≠ [] ∧ pat.isPrefixOf (c :: rest)
      · simp only [findAuxS]
        rw [if_pos h, if_pos h,
          findAuxS_shift pat rest (i + 1) (pat.length - 1),
          findAuxS_shift pat rest (0 + 1) (pat.length - 1),
          List.map_cons, map_shiftPair_shiftPair, h1]
        congr 1
        simp only [shiftPair, Prod.mk.injEq]
        omega
      · simp only [findAuxS]
        rw [if_neg h, if_neg h,
          findAuxS_shift pat rest (i + 1) 0, findAuxS_shift pat rest (0 + 1) 0,
          map_shiftPair_shiftPair, h1]

theorem findAuxS_skip_drop (pat : List Char) :
    ∀ (t : List Char) (i n : Nat),
      findAuxS pat t i n = findAuxS pat (t.drop n) (i + n) 0
  | _, _, 0 => by simp
  | [], _, _ + 1 => by simp [findAuxS]
  | c :: rest, i, n + 1 => by
      show findAuxS pat rest (i + 1) n = findAuxS pat ((c :: rest).drop (n + 1)) (i + (n + 1)) 0
      rw [findAuxS_skip_drop pat rest (i + 1) n, List.drop_succ_cons]
      congr 1
      omega

/-- Core correctness of the per-phrase pass when nothing has shifted the
positions yet: inserting tags at the matches found in the lowered text
wraps exactly the leftmost non-overlapping case-insensitive occurrences. -/
theorem insertTags_findAuxS_spec (color phrase : List Char) (hp : phrase ≠ []) :
    (text : List Char) →
      insertTags color (findAuxS (lowerText phrase) (lowerText text) 0 0) text =
        specWrapSingle color phrase text
  | [] => by
      simp [lowerText, findAuxS, insertTags, specWrapSingle]
  | c :: rest => by
      have hp' : lowerText phrase ≠ [] := by
        simpa [lowerText, List.map_eq_nil_iff] using hp
      have hL : 0 < phrase.length := List.length_pos.mpr hp
      obtain ⟨k, hphl⟩ : ∃ k, phrase.length = k + 1 := ⟨phrase.length - 1, by omega⟩
      have hLpat : (lowerText phrase).length = phrase.length := List.length_map _ _
      have hcons : lowerText (c :: rest) = lowerChar c :: lowerText rest := rfl
      by_cases h : (lowerText phrase).isPrefixOf (lowerText (c :: rest))
      · have hcond : lowerText phrase ≠ [] ∧
            (lowerText phrase).isPrefixOf (lowerChar c :: lowerText rest) := ⟨hp', h⟩
        rw [hcons]
        simp only [findAuxS]
        rw [if_pos hcond, Nat.zero_add, Nat.zero_add, hLpat, hphl,
          findAuxS_skip_drop (lowerText phrase) (lowerText rest) 1 (k + 1 - 1)]
        have hk1 : k + 1 - 1 = k := by omega
        have hk2 : 1 + k = k + 1 := by omega
        rw [hk1, hk2, show (lowerText rest).drop k = lowerText (rest.drop k) from
            (List.map_drop lowerChar rest k).symm,
          findAuxS_shift (lowerText phrase) (lowerText (rest.drop k)) (k + 1) 0]
        have ih := insertTags_findAuxS_spec color phrase hp ((c :: rest).drop (k + 1))
        rw [List.drop_succ_cons] at ih
        set qs := findAuxS (lowerText phrase) (lowerText (rest.drop k)) 0 0 with hqs
        simp only [insertTags_cons]
        have hlen_le : k + 1 ≤ rest.length + 1 := by
          have hpre := List.IsPrefix.length_le (List.isPrefixOf_iff_prefix.mp h)
          rw [hLpat, hphl] at hpre
          simpa [lowerText] using hpre
        have hul : ((c :: rest).take (k + 1)).length = k + 1 := by
          rw [List.length_take]
          simp only [List.length_cons]
          omega
        have key : insertTags color (List.map (shiftPair (k + 1)) qs) (c :: rest) =
            (c :: rest).take (k + 1) ++ insertTags color qs (rest.drop k) := by
          have hshift := insertTags_shift color qs
            ((c :: rest).take (k + 1)) ((c :: rest).drop (k + 1))
          rw [hul, List.take_append_drop, List.drop_succ_cons] at hshift
          exact hshift
        rw [key]
        have key2 : insertString
            ((c :: rest).take (k + 1) ++ insertTags color qs (rest.drop k))
            (closingTag color) (k + 1) =
            (c :: rest).take (k + 1) ++
              (closingTag color ++ insertTags color qs (rest.drop k)) := by
          nth_rewrite 2 [← hul]
          exact insertString_at_length _ _ _
        rw [key2, insertString_zero, ih]
        simp only [specWrapSingle]
        rw [dif_pos ⟨hp, h⟩, hphl, List.drop_succ_cons]
        simp [List.append_assoc]
      · have hcond : ¬ (lowerText phrase ≠ [] ∧
            (lowerText phrase).isPrefixOf (lowerChar c :: lowerText rest)) :=
          fun hc => h hc.2
        rw [hcons]
        simp only [findAuxS]
        rw [if_neg hcond, Nat.zero_add,
          findAuxS_shift (lowerText phrase) (lowerText rest) 1 0]
        set qs := findAuxS (lowerText phrase) (lowerText rest) 0 0 with hqs
        have key := insertTags_shift color qs [c] rest
        simp only [List.length_singleton, List.singleton_append] at key
        rw [key]
        have ih := insertTags_findAuxS_spec color phrase hp rest
        rw [hqs, ih]
        simp only [specWrapSingle]
        rw [dif_neg (fun hc => h hc.2)]
termination_by text => text.length
decreasing_by
  · simp only [List.length_drop, List.length_cons]
    omega
  · simp only [List.length_cons]
    omega

/-- C6 (amended).  For a HighlightRules map consisting of a single color
with a single non-empty phrase, the highlighting pass wraps every
case-insensitive occurrence of the phrase (leftmost, non-overlapping) with
the color's opening and closing tags.  With several phrases the code
processes phrases in their list order (not longest-first) and blanks matched
ranges in the scratch string so they are never re-matched, but it inserts
tags at scratch-string positions into the already-grown highlighted text, so
occurrences after an earlier insertion are mis-wrapped (see the
counterexample). -/
theorem C6_highlight_single_phrase (color phrase text : List Char)
    (hp : phrase ≠ []) :
    highlightText text [(color, [phrase])] = specWrapSingle color phrase text := by
  rw [highlightText]
  by_cases ht : text = []
  · subst ht
    simp [specWrapSingle]
  · rw [if_neg ht, if_neg (by simp : ¬([(color, [phrase])] :
        List (List Char × List (List Char))) = [])]
    simp only [List.foldl_cons, List.foldl_nil]
    rw [applyPhrase_highlighted]
    have hp' : lowerText phrase ≠ [] := by
      simpa [lowerText, List.map_eq_nil_iff] using hp
    rw [findMatches, if_neg hp']
    exact insertTags_findAuxS_spec color phrase hp text

theorem C6_highlight_single_phrase_witness :
    ("cd".toList : List Char) ≠ [] ∧
    highlightText ("ab cd".toList) [("c".toList, ["cd".toList])] =
      specWrapSingle ("c".toList) ("cd".toList) ("ab cd".toList) :=
  ⟨by decide, C6_highlight_single_phrase ("c".toList) ("cd".toList) ("ab cd".toList)
    (by decide)⟩

end SignalScribe
